import Mathlib

/-!
# Verification of the wear screenshot stitcher core

A shallow embedding of the alignment-and-compositing core of
`wear_screenshot_stitch.py`: the row hasher (`get_row_hashes`), the offset
matcher (the `max` expression in `main`), the contribution aggregator
(`rows_for_absolute`), and the per-pixel compositor, together with proofs
about them.

Machine arithmetic conventions:
* Python integers are unbounded, so `Nat`/`Int` model them directly; the one
  explicit modulus in the source (`row_hash %= 2**64`) is kept as `% 2^64`.
* The two floating-point products in the source, `width * 0.3` and
  `width * 0.7`, are modelled exactly: `0.3` and `0.7` are the IEEE-754
  doubles `5404319552844595 / 2^54` and `6305039478318694 / 2^53`, and the
  product with an exactly-representable integer `W` is rounded to 53
  significant bits with round-to-nearest, ties-to-even, before truncation.
  `floorMulDouble` below implements that rounding in plain `Nat` arithmetic
  (exact for every `W < 2^53`, far beyond any image width).
* The remaining real-valued expressions in the compositor
  (`middle = (height-1)/2`, `hypot_squared`, `(height/2 - 2)**2`,
  `fabs(row - middle)`, `height/2` band bounds) involve only halves of
  integers; they are modelled exactly by scaling by 2 (or 4 for the squared
  comparison) into `Int`, which agrees with the double-precision evaluation
  for all realistic image sizes (exact below 2^26).
-/

/-- An RGBA pixel, as returned by `im.getpixel` on an RGBA image. -/
structure Pixel where
  r : Nat
  g : Nat
  b : Nat
  a : Nat
deriving DecidableEq, Repr

/-- A captured frame: a `width × height` grid of pixels.  `pix x y` is the
pixel at column `x`, row `y` (only in-range coordinates are ever read). -/
structure Frame where
  width : Nat
  height : Nat
  pix : Nat → Nat → Pixel

/-- `rgb_to_int` from the source: `(r * 0x10000) + (g * 0x100) + b`,
alpha discarded. -/
def rgb_to_int (p : Pixel) : Nat :=
  p.r * 0x10000 + p.g * 0x100 + p.b

/-- `HASH_MODULO = 2**64` from the source. -/
def HASH_MODULO : Nat := 2 ^ 64

/-- `HASH_MULTIPLIER = 31` from the source. -/
def HASH_MULTIPLIER : Nat := 31

/-- Mantissa of the IEEE-754 double nearest to `0.3`, over `2^54`:
`0.3 = 5404319552844595 / 2^54` after rounding. -/
def M03 : Nat := 5404319552844595

/-- Mantissa of the IEEE-754 double nearest to `0.7`, over `2^53`:
`0.7 = 6305039478318694 / 2^53` after rounding. -/
def M07 : Nat := 6305039478318694

/-- Normalisation shift: the least `sh` with `m / 2^sh < 2^53`, computed with
structural fuel so that it reduces inside the kernel.  The fuel `128` covers
every value that arises (`m < 2^53 · 2^53`). -/
def normShift : Nat → Nat → Nat
  | 0, _ => 0
  | fuel + 1, m => if m < 2 ^ 53 then 0 else normShift fuel (m / 2) + 1

/-- Exact model of `int(W * c)` where `c` is the IEEE-754 double `M / 2^s`
and `W` is a nonnegative integer exactly representable as a double:
the real product `M·W / 2^s` is rounded to 53 significant bits
(round-to-nearest, ties-to-even) and the resulting double is truncated. -/
def floorMulDouble (W M s : Nat) : Nat :=
  let N := M * W
  if N < 2 ^ 53 then
    N / 2 ^ s
  else
    let sh := normShift 128 N
    let q := N / 2 ^ sh
    let r := N % 2 ^ sh
    let half := 2 ^ (sh - 1)
    let m := if half < r || (r == half && q % 2 == 1) then q + 1 else q
    m * 2 ^ sh / 2 ^ s

/-- `int(width * 0.3)` from the source, modelled exactly. -/
def bandLo (W : Nat) : Nat := floorMulDouble W M03 54

/-- `int(width * 0.7)` from the source, modelled exactly. -/
def bandHi (W : Nat) : Nat := floorMulDouble W M07 53

/-- One row's hash, from `get_row_hashes`: starting from `row_hash = 1`,
for `x in range(int(width*0.3), int(width*0.7))` perform
`row_hash = (row_hash * 31 + rgb_to_int(pixel)) % 2**64`. -/
def rowHash (f : Frame) (y : Nat) : Nat :=
  (List.range' (bandLo f.width) (bandHi f.width - bandLo f.width)).foldl
    (fun h x => (h * HASH_MULTIPLIER + rgb_to_int (f.pix x y)) % HASH_MODULO) 1

/-- `get_row_hashes` from the source: one hash per row. -/
def get_row_hashes (f : Frame) : List Nat :=
  (List.range f.height).map (rowHash f)

/-! ## Offset matcher

The source (`main`, lines 189–192):
```
(best_score, best_offset) = max([(len([
    z for z in range(0, height - offset)
    if row_hashes[z] == previous_row_hashes[z + offset]
]), offset) for offset in range(0, height)])
```
Python `max` on a list of tuples scans left to right keeping the current
maximum and replaces it only by a strictly greater element; tuples compare
lexicographically.  Python list indexing raises on out-of-range indices;
under the intended use both hash lists have length `height`, so all indexed
positions are in range and `getD _ 0` below coincides with true indexing. -/

/-- The match score for one candidate offset: the number of indices `z` in
`[0, H − offset)` with `current[z] == previous[z + offset]`. -/
def matchScore (current previous : List Nat) (H offset : Nat) : Nat :=
  ((List.range (H - offset)).filter
    (fun z => current.getD z 0 == previous.getD (z + offset) 0)).length

/-- Python `<` on the `(score, offset)` tuples: lexicographic. -/
def pairLt (a b : Nat × Nat) : Bool :=
  a.1 < b.1 || (a.1 == b.1 && a.2 < b.2)

/-- Python `max` over a list of `(score, offset)` tuples: `none` on the
empty list (Python raises `ValueError` there), otherwise the scan that keeps
the current maximum and replaces it only by a strictly greater element. -/
def pyMax : List (Nat × Nat) → Option (Nat × Nat)
  | [] => none
  | x :: xs => some (xs.foldl (fun acc v => if pairLt acc v then v else acc) x)

/-- The offset matcher: the `max` expression of the source, over candidate
offsets `range(0, height)`. -/
def bestMatch (previous current : List Nat) (H : Nat) : Option (Nat × Nat) :=
  pyMax ((List.range H).map (fun offset => (matchScore current previous H offset, offset)))

/-! ## Contribution aggregator

The source (`main`, lines 175–199) seeds `rows_for_absolute[y] += [(0, y)]`
for every row `y` of frame 0, then for each subsequent frame `i` adds the
matched offset to the running `absolute_offset` and appends `(i, y)` at key
`y + absolute_offset`.  The `defaultdict(list)` is modelled as a total
function from keys to lists, empty by default. -/

/-- The contribution map: absolute output row ↦ ordered list of
`(frame_index, source_row)` pairs. -/
def ContribMap : Type := Nat → List (Nat × Nat)

/-- Append one value at one key of a contribution map. -/
def appendAt (m : ContribMap) (k : Nat) (v : Nat × Nat) : ContribMap :=
  fun k' => if k' = k then m k' ++ [v] else m k'

/-- `for y in range(height): m[y + off].append((i, y))`. -/
def addFrameRows (m : ContribMap) (i off H : Nat) : ContribMap :=
  (List.range H).foldl (fun m y => appendAt m (y + off) (i, y)) m

/-- Processing of frames `i, i+1, …` given the per-frame offsets still to
consume and the current running absolute offset; returns the final map and
the final absolute offset. -/
def aggAux (H : Nat) : List Nat → ContribMap → Nat → Nat → ContribMap × Nat
  | [], m, abs, _ => (m, abs)
  | off :: rest, m, abs, i =>
      aggAux H rest (addFrameRows m i (abs + off) H) (abs + off) (i + 1)

/-- The contribution aggregator: frame 0 at absolute offset 0, then each
subsequent frame at the accumulated offset.  `offs` lists the matched
offsets of frames `1, …, n-1`. -/
def aggregate (offs : List Nat) (H : Nat) : ContribMap × Nat :=
  aggAux H offs (addFrameRows (fun _ => []) 0 0 H) 0 1

/-- The absolute offset of frame `i`: the sum of the matched offsets of
frames `1, …, i` (`absolute_offset_0 = 0`). -/
def absoluteOffset (offs : List Nat) (i : Nat) : Nat :=
  ((offs.take i)).sum

/-! ## Compositor

The source (`main`, lines 203–241).  Real-valued quantities are scaled:
`middle = (height - 1) / 2` is kept as the integer `H - 1` over a factor 2,
the circle test is multiplied by 4, the interior-band bounds by 2, and
`fabs(row - middle)` by 2 (`dist2`), all exact.

The canvas is the list of already-composited rows, in increasing `y` order.
`im_out.getpixel((x, y - 2))` is modelled as a guarded lookup that fails
(`none`) when `y < 2`, where the Python expression indexes the image at a
negative coordinate (an `IndexError` on the PIL of the tool's era).  Python
`min` over `(fabs(row - middle), pixel)` tuples compares the *pixel tuples*
lexicographically when the distances tie; `pixLt`/`distPixLt` reproduce
that. -/

/-- Python `<` on RGBA tuples: lexicographic on `(r, g, b, a)`. -/
def pixLt (p q : Pixel) : Bool :=
  p.r < q.r || (p.r == q.r && (p.g < q.g || (p.g == q.g &&
    (p.b < q.b || (p.b == q.b && p.a < q.a)))))

/-- Python `<` on the `(fabs(row - middle), pixel)` tuples fed to `min`:
first the distance, then — on equal distances — the pixel tuple. -/
def distPixLt (a b : Nat × Pixel) : Bool :=
  a.1 < b.1 || (a.1 == b.1 && pixLt a.2 b.2)

/-- Twice `fabs(row - middle)` with `middle = (H - 1) / 2`: the value
`|2·row − (H − 1)|`, an exact integer scaling of the double computation. -/
def dist2 (row H : Nat) : Nat :=
  (2 * (row : Int) - ((H : Int) - 1)).natAbs

/-- Python `min` over a nonempty list of `(distance, pixel)` tuples: scans
left to right, replacing the current minimum only by a strictly smaller
element; `none` on the empty list (Python raises `ValueError` there). -/
def pyMin : List (Nat × Pixel) → Option (Nat × Pixel)
  | [] => none
  | x :: xs => some (xs.foldl (fun acc v => if distPixLt v acc then v else acc) x)

/-- `(_, suggested_pixel) = min((math.fabs(row - middle), p) for (row, p) in bucket)`. -/
def selectPixel (bucket : List (Nat × Pixel)) (H : Nat) : Option Pixel :=
  (pyMin (bucket.map (fun rp => (dist2 rp.1 H, rp.2)))).map (·.2)

/-- The on-screen test (`main`, lines 213–218): with `--round`,
`hypot_squared < ((height / 2) - 2)**2` where
`hypot_squared = (x - middle)² + (row - middle)²`; always true otherwise.
Scaled by 4 into `Int`: `(2x − (H−1))² + (2row − (H−1))² < (H − 4)²`. -/
def onScreen (x row H : Nat) (useRound : Bool) : Bool :=
  if useRound then
    decide ((2 * (x : Int) - ((H : Int) - 1)) ^ 2
      + (2 * (row : Int) - ((H : Int) - 1)) ^ 2 < ((H : Int) - 4) ^ 2)
  else
    true

/-- Bucket construction for one output column `x` (`main`, lines 210–224):
each contribution `(image_id, row)` of the current output row contributes
`(row, pixel)` to the on-screen or the off-screen bucket. -/
def buckets (frames : List Frame) (contribs : List (Nat × Nat)) (x H : Nat)
    (useRound : Bool) : List (Nat × Pixel) × List (Nat × Pixel) :=
  contribs.foldl
    (fun bs ir =>
      let p := (frames.getD ir.1 ⟨0, 0, fun _ _ => ⟨0, 0, 0, 0⟩⟩).pix x ir.2
      if onScreen x ir.2 H useRound then (bs.1 ++ [(ir.2, p)], bs.2)
      else (bs.1, bs.2 ++ [(ir.2, p)]))
    ([], [])

/-- One output pixel (`main`, lines 228–241).  `canvasPrev` holds the rows
`0, …, y-1` already composited.  `none` models a raised exception: an
out-of-range canvas read, or `min` over an empty bucket. -/
def compositePixel (frames : List Frame) (contribs : List (Nat × Nat))
    (canvasPrev : List (List Pixel)) (x y H outH : Nat)
    (useRound transp : Bool) : Option Pixel :=
  let bs := buckets frames contribs x H useRound
  if bs.1.isEmpty then
    if 2 * (y : Int) ≥ (H : Int) ∧ 2 * (y : Int) < 2 * (outH : Int) - (H : Int) then
      if 2 ≤ y then ((canvasPrev.getD (y - 2) []).get? x) else none
    else
      if transp then some ⟨0, 0, 0, 0⟩ else selectPixel bs.2 H
  else
    selectPixel bs.1 H

/-- One output row: the pixels for `x in range(width)`, all of which must
resolve. -/
def compositeRow (frames : List Frame) (contribs : List (Nat × Nat))
    (canvasPrev : List (List Pixel)) (W y H outH : Nat)
    (useRound transp : Bool) : Option (List Pixel) :=
  (List.range W).foldr
    (fun x acc =>
      match compositePixel frames contribs canvasPrev x y H outH useRound transp,
        acc with
      | some p, some l => some (p :: l)
      | _, _ => none)
    (some [])

/-- The full compositor: rows in increasing `y` order, each appended to the
canvas before the next is computed (the `y - 2` fallback reads earlier
rows). -/
def composite (frames : List Frame) (m : ContribMap) (W H outH : Nat)
    (useRound transp : Bool) : Option (List (List Pixel)) :=
  (List.range outH).foldl
    (fun acc y =>
      match acc with
      | none => none
      | some canvas =>
          match compositeRow frames (m y) canvas W y H outH useRound transp with
          | some row => some (canvas ++ [row])
          | none => none)
    (some [])

/-! ## Full pipeline

`main`, lines 171–241, restricted to the stitching core: hash the frames,
match consecutive frames, aggregate contributions, composite.  `width` and
`height` are those of frame 0 (the source reads them from the first
capture); `output_height = max(rows_for_absolute.keys()) + 1`, which for the
monotone nonnegative offsets produced here equals the final absolute offset
plus `height` (proved in `aggregate_keys_contiguous`).  `none` models an
uncaught exception (no frames, or `height = 0`, or a compositing failure). -/

/-- The matched offsets of frames `1, …, n-1`, each against its immediate
predecessor's row hashes. -/
def pipelineOffsets (first : Frame) (rest : List Frame) (H : Nat) :
    Option (List Nat) :=
  (rest.foldl
    (fun acc fi =>
      match acc with
      | none => none
      | some st =>
          match bestMatch st.1 (get_row_hashes fi) H with
          | some so => some (get_row_hashes fi, st.2 ++ [so.2])
          | none => none)
    (some (get_row_hashes first, []))).map (·.2)

/-- The stitching core: returns the matched offsets, the output height, and
the composited canvas. -/
def stitch (frames : List Frame) (useRound transp : Bool) :
    Option (List Nat × Nat × List (List Pixel)) :=
  match frames with
  | [] => none
  | f0 :: rest =>
      let W := f0.width
      let H := f0.height
      if H = 0 then none
      else
        match pipelineOffsets f0 rest H with
        | none => none
        | some offs =>
            let agg := aggregate offs H
            let outH := agg.2 + H
            match composite frames agg.1 W H outH useRound transp with
            | some canvas => some (offs, outH, canvas)
            | none => none

/-! ## Generic scan-extremum helpers

Python `max` and `min` over a nonempty iterable both scan left to right and
replace the current extremum only on a strict comparison; the two folds
below capture that for an arbitrary boolean strict order. -/

/-- Python `min`-style scan: replace the accumulator only when the new
element is strictly smaller. -/
def foldMinB {α : Type} (lt : α → α → Bool) (acc : α) (l : List α) : α :=
  l.foldl (fun a v => if lt v a then v else a) acc

/-- Python `max`-style scan: replace the accumulator only when the new
element is strictly greater. -/
def foldMaxB {α : Type} (lt : α → α → Bool) (acc : α) (l : List α) : α :=
  l.foldl (fun a v => if lt a v then v else a) acc

/-! ## Spec-side definitions used to check refinement-style claims -/

/-- The row hash as claim C2 states it: the same Horner fold, but over the
column range `[⌊0.3·W⌋, ⌊0.7·W⌋)` with *exact rational floors* instead of
the double-precision products the source computes. -/
def floorBandRowHash (f : Frame) (y : Nat) : Nat :=
  (List.range' (3 * f.width / 10) (7 * f.width / 10 - 3 * f.width / 10)).foldl
    (fun h x => (h * HASH_MULTIPLIER + rgb_to_int (f.pix x y)) % HASH_MODULO) 1

/-- The bucket selection as claim C3 states it: the contribution whose row
is closest to the middle, with ties in the distance broken by insertion
order (first seen wins) — i.e. a scan comparing the distances only. -/
def selectPixelFirstSeen (bucket : List (Nat × Pixel)) (H : Nat) : Option Pixel :=
  match bucket.map (fun rp => (dist2 rp.1 H, rp.2)) with
  | [] => none
  | x :: xs => some ((foldMinB (fun a b => a.1 < b.1) x xs).2)

/-! ## Closed form of the aggregate used by the invariant proofs -/

/-- The contributions that frames `i, i+1, …` (with running absolute offset
`abs` and remaining per-frame offsets `offs`) add at output row `k`. -/
def auxList (H : Nat) : List Nat → Nat → Nat → Nat → List (Nat × Nat)
  | [], _, _, _ => []
  | off :: rest, abs, i, k =>
      (if abs + off ≤ k ∧ k < abs + off + H then [(i, k - (abs + off))] else [])
        ++ auxList H rest (abs + off) (i + 1) k

/-! ## Concrete frames for counterexamples and witnesses -/

/-- A solid-color frame. -/
def solidFrame (W H : Nat) (c : Pixel) : Frame :=
  ⟨W, H, fun _ _ => c⟩

/-- A 90-pixel-wide black frame (the smallest width where the source's
float column band `[27, 62)` differs from the rational floors `[27, 63)`). -/
def frame90 : Frame := solidFrame 90 1 ⟨0, 0, 0, 0⟩

/-- A 2-pixel-wide black frame: its column band `[0, 1)` is *not* empty. -/
def frameW2 : Frame := solidFrame 2 1 ⟨0, 0, 0, 0⟩

/-- First frame of the height-2 stitching scenario: rows of two distinct
solid colors. -/
def shortFrameA : Frame :=
  ⟨3, 2, fun _ y => if y = 0 then ⟨1, 0, 0, 255⟩ else ⟨2, 0, 0, 255⟩⟩

/-- Second frame of the height-2 stitching scenario: scrolled down one row
relative to `shortFrameA`. -/
def shortFrameB : Frame :=
  ⟨3, 2, fun _ y => if y = 0 then ⟨2, 0, 0, 255⟩ else ⟨3, 0, 0, 255⟩⟩

/-- A 4×1 frame whose single band column `x = 1` is gray. -/
def bandFrameA : Frame :=
  ⟨4, 1, fun x _ => if x = 1 then ⟨7, 7, 7, 7⟩ else ⟨1, 2, 3, 4⟩⟩

/-- Same band column as `bandFrameA`, different pixels outside the band. -/
def bandFrameB : Frame :=
  ⟨4, 1, fun x _ => if x = 1 then ⟨7, 7, 7, 7⟩ else ⟨9, 9, 9, 9⟩⟩

/-! # Facts about the scan-extremum helpers -/

theorem foldMaxB_cons {α : Type} (lt : α → α → Bool) (acc v : α) (l : List α) :
    foldMaxB lt acc (v :: l) = foldMaxB lt (if lt acc v then v else acc) l := rfl

theorem foldMinB_cons {α : Type} (lt : α → α → Bool) (acc v : α) (l : List α) :
    foldMinB lt acc (v :: l) = foldMinB lt (if lt v acc then v else acc) l := rfl

theorem foldMaxB_mem {α : Type} (lt : α → α → Bool) (acc : α) (l : List α) :
    foldMaxB lt acc l = acc ∨ foldMaxB lt acc l ∈ l := by
  induction l generalizing acc with
  | nil => exact Or.inl rfl
  | cons v l ih =>
    rw [foldMaxB_cons]
    by_cases hv : lt acc v = true
    · rw [if_pos hv]
      rcases ih v with h | h
      · exact Or.inr (by rw [h]; exact List.mem_cons_self v l)
      · exact Or.inr (List.mem_cons_of_mem v h)
    · rw [if_neg hv]
      rcases ih acc with h | h
      · exact Or.inl h
      · exact Or.inr (List.mem_cons_of_mem v h)

theorem foldMaxB_not_lt {α : Type} (lt : α → α → Bool)
    (htrans : ∀ a b c, lt a b = true → lt b c = true → lt a c = true)
    (hconn : ∀ a b, lt a b = false → lt b a = false → a = b)
    (hirr : ∀ a, lt a a = false) (acc : α) (l : List α) :
    lt (foldMaxB lt acc l) acc = false ∧
      ∀ x ∈ l, lt (foldMaxB lt acc l) x = false := by
  induction l generalizing acc with
  | nil => exact ⟨hirr acc, by simp⟩
  | cons v l ih =>
    rw [foldMaxB_cons]
    by_cases hv : lt acc v = true
    · rw [if_pos hv]
      obtain ⟨h1, h2⟩ := ih v
      refine ⟨?_, ?_⟩
      · by_cases hra : lt (foldMaxB lt v l) acc = true
        · rw [htrans _ _ _ hra hv] at h1; simp at h1
        · simpa using hra
      · intro x hx
        rcases List.mem_cons.mp hx with rfl | hx
        · exact h1
        · exact h2 x hx
    · rw [if_neg hv]
      have hvf : lt acc v = false := by simpa using hv
      obtain ⟨h1, h2⟩ := ih acc
      refine ⟨h1, ?_⟩
      intro x hx
      rcases List.mem_cons.mp hx with rfl | hx
      · by_cases hrv : lt (foldMaxB lt acc l) x = true
        · by_cases hva : lt x acc = true
          · rw [htrans _ _ _ hrv hva] at h1; simp at h1
          · have hvaf : lt x acc = false := by simpa using hva
            rw [← hconn acc x hvf hvaf] at hrv
            rw [hrv] at h1; simp at h1
        · simpa using hrv
      · exact h2 x hx

theorem foldMinB_eq_foldMaxB {α : Type} (lt : α → α → Bool) (acc : α) (l : List α) :
    foldMinB lt acc l = foldMaxB (fun a b => lt b a) acc l := rfl

theorem foldMinB_not_lt {α : Type} (lt : α → α → Bool)
    (htrans : ∀ a b c, lt a b = true → lt b c = true → lt a c = true)
    (hconn : ∀ a b, lt a b = false → lt b a = false → a = b)
    (hirr : ∀ a, lt a a = false) (acc : α) (l : List α) :
    lt acc (foldMinB lt acc l) = false ∧
      ∀ x ∈ l, lt x (foldMinB lt acc l) = false := by
  rw [foldMinB_eq_foldMaxB]
  exact foldMaxB_not_lt (fun a b => lt b a)
    (fun a b c hab hbc => htrans c b a hbc hab)
    (fun a b hab hba => (hconn b a hab hba).symm) hirr acc l

theorem foldMinB_first_minimal {α : Type} (lt : α → α → Bool)
    (htrans : ∀ a b c, lt a b = true → lt b c = true → lt a c = true)
    (hconn : ∀ a b, lt a b = false → lt b a = false → a = b)
    (acc : α) (l : List α) :
    foldMinB lt acc l = acc ∨
      ∃ j, j < l.length ∧ l.get? j = some (foldMinB lt acc l) ∧
        lt (foldMinB lt acc l) acc = true ∧
        ∀ i < j, ∀ x, l.get? i = some x → lt (foldMinB lt acc l) x = true := by
  induction l generalizing acc with
  | nil => exact Or.inl rfl
  | cons v l ih =>
    rw [foldMinB_cons]
    by_cases hv : lt v acc = true
    · rw [if_pos hv]
      rcases ih v with h | ⟨j, hj, hget, hlt, hearlier⟩
      · right
        exact ⟨0, by simp, by simp [h], by rw [h]; exact hv, by omega⟩
      · right
        refine ⟨j + 1, by simpa using hj, by simpa using hget,
          htrans _ _ _ hlt hv, ?_⟩
        intro i hi x hx
        match i, hx with
        | 0, hx => exact (Option.some_inj.mp hx) ▸ hlt
        | i + 1, hx => exact hearlier i (by omega) x hx
    · rw [if_neg hv]
      have hvf : lt v acc = false := by simpa using hv
      rcases ih acc with h | ⟨j, hj, hget, hlt, hearlier⟩
      · exact Or.inl h
      · right
        refine ⟨j + 1, by simpa using hj, by simpa using hget, hlt, ?_⟩
        intro i hi x hx
        match i, hx with
        | 0, hx =>
          cases Option.some_inj.mp hx
          by_cases hva : lt acc v = true
          · exact htrans _ _ _ hlt hva
          · have hvaf : lt acc v = false := by simpa using hva
            rw [hconn v acc hvf hvaf]
            exact hlt
        | i + 1, hx => exact hearlier i (by omega) x hx

/-! # Facts about the row hasher -/

theorem hashFold_congr (l : List Nat) (v w : Nat → Nat) (h0 : Nat)
    (h : ∀ x ∈ l, v x = w x) :
    l.foldl (fun h x => (h * HASH_MULTIPLIER + v x) % HASH_MODULO) h0 =
      l.foldl (fun h x => (h * HASH_MULTIPLIER + w x) % HASH_MODULO) h0 := by
  induction l generalizing h0 with
  | nil => rfl
  | cons a l ih =>
    simp only [List.foldl_cons]
    rw [h a (List.mem_cons_self a l)]
    exact ih _ (fun x hx => h x (List.mem_cons_of_mem a hx))

/-- The row hashes of two frames of equal dimensions agree whenever the
frames agree on a column range covering the sampled band. -/
theorem get_row_hashes_congr_on (f g : Frame) (lo hi : Nat)
    (hw : f.width = g.width) (hh : f.height = g.height)
    (hlo : lo ≤ bandLo f.width) (hhi : bandHi f.width ≤ hi)
    (hagree : ∀ y < f.height, ∀ x, lo ≤ x → x < hi → f.pix x y = g.pix x y) :
    get_row_hashes f = get_row_hashes g := by
  rw [get_row_hashes, get_row_hashes, ← hh]
  apply List.map_congr_left
  intro y hy
  have hyH : y < f.height := List.mem_range.mp hy
  rw [rowHash, rowHash, ← hw]
  apply hashFold_congr
  intro x hx
  have hxr := List.mem_range'_1.mp hx
  exact congrArg rgb_to_int (hagree y hyH x (by omega) (by omega))

set_option maxRecDepth 40000 in
/-- For every width up to 1024, the double-precision column band is
contained in the exact-rational-floor band (they coincide except that the
upper bound can fall one short, first at width 90). -/
theorem band_subset_floor_band : ∀ W < 1025,
    3 * W / 10 ≤ bandLo W ∧ bandHi W ≤ 7 * W / 10 := by decide

set_option maxRecDepth 8000 in
/-- For every width up to 89, the double-precision column band coincides
with the exact-rational-floor band. -/
theorem band_eq_floor_band_below_90 : ∀ W < 90,
    bandLo W = 3 * W / 10 ∧ bandHi W = 7 * W / 10 := by decide

/-! # Facts about the tuple orders -/

theorem pairLt_iff (a b : Nat × Nat) :
    pairLt a b = true ↔ a.1 < b.1 ∨ (a.1 = b.1 ∧ a.2 < b.2) := by
  simp [pairLt]

theorem pairLt_trans (a b c : Nat × Nat) (hab : pairLt a b = true)
    (hbc : pairLt b c = true) : pairLt a c = true := by
  rw [pairLt_iff] at *; omega

theorem pairLt_conn (a b : Nat × Nat) (hab : pairLt a b = false)
    (hba : pairLt b a = false) : a = b := by
  have h1 : ¬(pairLt a b = true) := by simp [hab]
  have h2 : ¬(pairLt b a = true) := by simp [hba]
  rw [pairLt_iff] at h1 h2
  obtain ⟨a1, a2⟩ := a
  obtain ⟨b1, b2⟩ := b
  simp only [Prod.mk.injEq]
  constructor <;> omega

theorem pairLt_irrefl (a : Nat × Nat) : pairLt a a = false := by
  simp [pairLt]

theorem pixLt_iff (p q : Pixel) : pixLt p q = true ↔
    (p.r < q.r ∨ (p.r = q.r ∧ (p.g < q.g ∨ (p.g = q.g ∧
      (p.b < q.b ∨ (p.b = q.b ∧ p.a < q.a)))))) := by
  simp [pixLt]

theorem pixLt_trans (p q r : Pixel) (hpq : pixLt p q = true)
    (hqr : pixLt q r = true) : pixLt p r = true := by
  rw [pixLt_iff] at *; omega

theorem pixLt_conn (p q : Pixel) (hpq : pixLt p q = false)
    (hqp : pixLt q p = false) : p = q := by
  have h1 : ¬(pixLt p q = true) := by simp [hpq]
  have h2 : ¬(pixLt q p = true) := by simp [hqp]
  rw [pixLt_iff] at h1 h2
  obtain ⟨pr, pg, pb, pa⟩ := p
  obtain ⟨qr, qg, qb, qa⟩ := q
  simp only [Pixel.mk.injEq]
  simp only at h1 h2
  omega

theorem pixLt_irrefl (p : Pixel) : pixLt p p = false := by
  simp [pixLt]

theorem distPixLt_iff (a b : Nat × Pixel) : distPixLt a b = true ↔
    (a.1 < b.1 ∨ (a.1 = b.1 ∧ pixLt a.2 b.2 = true)) := by
  simp [distPixLt]

theorem distPixLt_trans (a b c : Nat × Pixel) (hab : distPixLt a b = true)
    (hbc : distPixLt b c = true) : distPixLt a c = true := by
  rw [distPixLt_iff] at *
  rcases hab with h | ⟨he, hp⟩
  · rcases hbc with h' | ⟨he', _⟩
    · exact Or.inl (by omega)
    · exact Or.inl (by omega)
  · rcases hbc with h' | ⟨he', hp'⟩
    · exact Or.inl (by omega)
    · exact Or.inr ⟨by omega, pixLt_trans _ _ _ hp hp'⟩

theorem distPixLt_conn (a b : Nat × Pixel) (hab : distPixLt a b = false)
    (hba : distPixLt b a = false) : a = b := by
  have h1 : ¬(distPixLt a b = true) := by simp [hab]
  have h2 : ¬(distPixLt b a = true) := by simp [hba]
  rw [distPixLt_iff] at h1 h2
  push_neg at h1 h2
  obtain ⟨a1, a2⟩ := a
  obtain ⟨b1, b2⟩ := b
  simp only at h1 h2
  have he : a1 = b1 := by omega
  subst he
  have hp1 : pixLt a2 b2 = false := by
    have := h1.2 rfl
    simpa using this
  have hp2 : pixLt b2 a2 = false := by
    have := h2.2 rfl
    simpa using this
  rw [pixLt_conn a2 b2 hp1 hp2]

theorem distPixLt_irrefl (a : Nat × Pixel) : distPixLt a a = false := by
  simp [distPixLt, pixLt]

/-! # Facts about the contribution aggregator -/

theorem addFrameRows_succ (m : ContribMap) (i off H : Nat) :
    addFrameRows m i off (H + 1) =
      appendAt (addFrameRows m i off H) (H + off) (i, H) := by
  unfold addFrameRows
  rw [List.range_succ, List.foldl_append]
  rfl

theorem addFrameRows_apply (m : ContribMap) (i off H k : Nat) :
    addFrameRows m i off H k =
      m k ++ (if off ≤ k ∧ k < off + H then [(i, k - off)] else []) := by
  induction H with
  | zero =>
    rw [if_neg (by omega)]
    simp [addFrameRows]
  | succ H ih =>
    rw [addFrameRows_succ]
    unfold appendAt
    by_cases hk : k = H + off
    · rw [if_pos hk, ih, if_neg (by omega), if_pos (by omega)]
      subst hk
      simp
    · rw [if_neg hk, ih]
      by_cases hc : off ≤ k ∧ k < off + H
      · rw [if_pos hc, if_pos (by omega)]
      · rw [if_neg hc, if_neg (by omega)]

theorem aggAux_fst (H : Nat) (offs : List Nat) :
    ∀ (m : ContribMap) (abs i k : Nat),
      (aggAux H offs m abs i).1 k = m k ++ auxList H offs abs i k := by
  induction offs with
  | nil => intro m abs i k; simp [aggAux, auxList]
  | cons off rest ih =>
    intro m abs i k
    have hstep : aggAux H (off :: rest) m abs i =
        aggAux H rest (addFrameRows m i (abs + off) H) (abs + off) (i + 1) := rfl
    have haux : auxList H (off :: rest) abs i k =
        (if abs + off ≤ k ∧ k < abs + off + H then [(i, k - (abs + off))] else [])
          ++ auxList H rest (abs + off) (i + 1) k := rfl
    rw [hstep, ih, addFrameRows_apply, haux, List.append_assoc]

theorem aggAux_snd (H : Nat) (offs : List Nat) :
    ∀ (m : ContribMap) (abs i : Nat),
      (aggAux H offs m abs i).2 = abs + offs.sum := by
  induction offs with
  | nil => intro m abs i; simp [aggAux]
  | cons off rest ih =>
    intro m abs i
    have hstep : aggAux H (off :: rest) m abs i =
        aggAux H rest (addFrameRows m i (abs + off) H) (abs + off) (i + 1) := rfl
    rw [hstep, ih]
    simp
    omega

theorem aggregate_fst (offs : List Nat) (H k : Nat) :
    (aggregate offs H).1 k =
      (if k < H then [(0, k)] else []) ++ auxList H offs 0 1 k := by
  unfold aggregate
  rw [aggAux_fst, addFrameRows_apply]
  have : (if 0 ≤ k ∧ k < 0 + H then [((0 : Nat), k - 0)] else []) =
      (if k < H then [((0 : Nat), k)] else []) := by
    by_cases h : k < H
    · rw [if_pos (by omega), if_pos h]; simp
    · rw [if_neg (by omega), if_neg h]
  rw [this]
  rfl

theorem aggregate_snd (offs : List Nat) (H : Nat) :
    (aggregate offs H).2 = offs.sum := by
  unfold aggregate
  rw [aggAux_snd]
  omega

theorem auxList_count (H : Nat) (offs : List Nat) :
    ∀ (abs i k j y : Nat),
      (auxList H offs abs i k).count (j, y) =
        if i ≤ j ∧ j < i + offs.length ∧ y < H ∧
            k = y + abs + (offs.take (j - i + 1)).sum then 1 else 0 := by
  induction offs with
  | nil =>
    intro abs i k j y
    have hc : ¬(i ≤ j ∧ j < i + ([] : List Nat).length ∧ y < H ∧
        k = y + abs + (([] : List Nat).take (j - i + 1)).sum) := by
      simp only [List.length_nil]
      omega
    rw [if_neg hc]
    simp [auxList]
  | cons off rest ih =>
    intro abs i k j y
    have hstep : auxList H (off :: rest) abs i k =
        (if abs + off ≤ k ∧ k < abs + off + H then [(i, k - (abs + off))] else [])
          ++ auxList H rest (abs + off) (i + 1) k := rfl
    rw [hstep, List.count_append, ih]
    have hhead : (if abs + off ≤ k ∧ k < abs + off + H
        then [(i, k - (abs + off))] else []).count (j, y) =
        if j = i ∧ abs + off ≤ k ∧ k < abs + off + H ∧ y = k - (abs + off)
          then 1 else 0 := by
      by_cases hc : abs + off ≤ k ∧ k < abs + off + H
      · rw [if_pos hc]
        simp only [List.count_cons, List.count_nil, Nat.zero_add,
          Prod.mk.injEq, beq_iff_eq]
        split_ifs <;> omega
      · rw [if_neg hc]
        simp only [List.count_nil]
        have hc2 : ¬(j = i ∧ abs + off ≤ k ∧ k < abs + off + H ∧
            y = k - (abs + off)) := by omega
        rw [if_neg hc2]
    rw [hhead]
    have hlen : (off :: rest).length = rest.length + 1 := by simp
    rw [hlen]
    by_cases hij : i + 1 ≤ j
    · have htake : ((off :: rest).take (j - i + 1)).sum =
          off + (rest.take (j - (i + 1) + 1)).sum := by
        have h1 : j - i + 1 = (j - (i + 1) + 1) + 1 := by omega
        rw [h1, List.take_succ_cons]
        simp
      rw [htake]
      split_ifs <;> omega
    · by_cases hji : j = i
      · have htake : ((off :: rest).take (j - i + 1)).sum = off := by
          rw [show j - i + 1 = 1 by omega]
          simp
        rw [htake]
        split_ifs <;> omega
      · split_ifs <;> omega

theorem aggregate_count (offs : List Nat) (H i y k : Nat) :
    ((aggregate offs H).1 k).count (i, y) =
      if i ≤ offs.length ∧ y < H ∧ k = y + absoluteOffset offs i
        then 1 else 0 := by
  rw [aggregate_fst, List.count_append, auxList_count]
  have hhead : (if k < H then [((0 : Nat), k)] else []).count (i, y) =
      if i = 0 ∧ y = k ∧ k < H then 1 else 0 := by
    by_cases hk : k < H
    · rw [if_pos hk]
      simp only [List.count_cons, List.count_nil, Nat.zero_add,
        Prod.mk.injEq, beq_iff_eq]
      split_ifs <;> omega
    · rw [if_neg hk]
      simp only [List.count_nil]
      have hc2 : ¬(i = 0 ∧ y = k ∧ k < H) := by omega
      rw [if_neg hc2]
  rw [hhead]
  by_cases h1i : 1 ≤ i
  · have ht1 : i - 1 + 1 = i := by omega
    rw [ht1]
    have habs : absoluteOffset offs i = (offs.take i).sum := rfl
    rw [habs]
    split_ifs <;> omega
  · have hi0 : i = 0 := by omega
    subst hi0
    have habs : absoluteOffset offs 0 = 0 := by simp [absoluteOffset]
    rw [habs]
    have htail : ¬(1 ≤ 0 ∧ (0 : Nat) < 1 + offs.length ∧ y < H ∧
        k = y + 0 + (offs.take (0 - 1 + 1)).sum) := by omega
    rw [if_neg htail]
    split_ifs <;> omega

theorem auxList_ne_nil_bound (H : Nat) (offs : List Nat) :
    ∀ (abs i k : Nat), auxList H offs abs i k ≠ [] →
      k < abs + offs.sum + H := by
  induction offs with
  | nil => intro abs i k h; exact absurd rfl h
  | cons off rest ih =>
    intro abs i k h
    have hstep : auxList H (off :: rest) abs i k =
        (if abs + off ≤ k ∧ k < abs + off + H then [(i, k - (abs + off))] else [])
          ++ auxList H rest (abs + off) (i + 1) k := rfl
    rw [hstep] at h
    have hsum : (off :: rest).sum = off + rest.sum := by simp
    by_cases htail : auxList H rest (abs + off) (i + 1) k = []
    · rw [htail, List.append_nil] at h
      by_cases hc : abs + off ≤ k ∧ k < abs + off + H
      · omega
      · rw [if_neg hc] at h; exact absurd rfl h
    · have := ih (abs + off) (i + 1) k htail
      omega

theorem auxList_covers (H : Nat) (offs : List Nat) (hoffs : ∀ o ∈ offs, o < H) :
    ∀ (abs i k : Nat), abs + H ≤ k → k < abs + offs.sum + H →
      auxList H offs abs i k ≠ [] := by
  induction offs with
  | nil => intro abs i k h1 h2; simp at h2; omega
  | cons off rest ih =>
    intro abs i k h1 h2
    have hstep : auxList H (off :: rest) abs i k =
        (if abs + off ≤ k ∧ k < abs + off + H then [(i, k - (abs + off))] else [])
          ++ auxList H rest (abs + off) (i + 1) k := rfl
    rw [hstep]
    have hoff : off < H := hoffs off (List.mem_cons_self off rest)
    have hsum : (off :: rest).sum = off + rest.sum := by simp
    by_cases hc : k < abs + off + H
    · rw [if_pos (by omega)]
      simp
    · have htail := ih (fun o ho => hoffs o (List.mem_cons_of_mem off ho))
        (abs + off) (i + 1) k (by omega) (by omega)
      intro hcontra
      exact htail (List.append_eq_nil.mp hcontra).2

theorem indicator_interval_sum (a H K : Nat) (h : a + H ≤ K) :
    (∑ k ∈ Finset.range K, if a ≤ k ∧ k < a + H then 1 else 0) = H := by
  have h1 : ∀ k, (if a ≤ k ∧ k < a + H then (1 : Nat) else 0) =
      if k ∈ Finset.Ico a (a + H) then 1 else 0 := by
    intro k
    simp [Finset.mem_Ico]
  rw [Finset.sum_congr rfl (fun k _ => h1 k), Finset.sum_ite_mem]
  have h2 : Finset.range K ∩ Finset.Ico a (a + H) = Finset.Ico a (a + H) := by
    apply Finset.inter_eq_right.mpr
    intro x hx
    simp only [Finset.mem_Ico] at hx
    simp only [Finset.mem_range]
    omega
  rw [h2]
  simp [Nat.card_Ico]

theorem auxList_total (H : Nat) (offs : List Nat) :
    ∀ (abs i K : Nat), abs + offs.sum + H ≤ K →
      (∑ k ∈ Finset.range K, (auxList H offs abs i k).length) =
        offs.length * H := by
  induction offs with
  | nil => intro abs i K hK; simp [auxList]
  | cons off rest ih =>
    intro abs i K hK
    have hsum : (off :: rest).sum = off + rest.sum := by simp
    have hstep : ∀ k, (auxList H (off :: rest) abs i k).length =
        (if abs + off ≤ k ∧ k < abs + off + H then 1 else 0)
          + (auxList H rest (abs + off) (i + 1) k).length := by
      intro k
      have heq : auxList H (off :: rest) abs i k =
          (if abs + off ≤ k ∧ k < abs + off + H
            then [(i, k - (abs + off))] else [])
            ++ auxList H rest (abs + off) (i + 1) k := rfl
      rw [heq, List.length_append]
      congr 1
      by_cases hc : abs + off ≤ k ∧ k < abs + off + H
      · rw [if_pos hc, if_pos hc]; rfl
      · rw [if_neg hc, if_neg hc]; rfl
    rw [Finset.sum_congr rfl (fun k _ => hstep k), Finset.sum_add_distrib,
      indicator_interval_sum (abs + off) H K (by omega),
      ih (abs + off) (i + 1) K (by omega)]
    simp
    ring

theorem aggregate_total (offs : List Nat) (H : Nat) :
    (∑ k ∈ Finset.range (offs.sum + H), ((aggregate offs H).1 k).length) =
      (offs.length + 1) * H := by
  have hlen : ∀ k, ((aggregate offs H).1 k).length =
      (if 0 ≤ k ∧ k < 0 + H then 1 else 0) + (auxList H offs 0 1 k).length := by
    intro k
    rw [aggregate_fst, List.length_append]
    congr 1
    by_cases hc : k < H
    · rw [if_pos hc, if_pos (by omega)]; rfl
    · rw [if_neg hc, if_neg (by omega)]; rfl
  rw [Finset.sum_congr rfl (fun k _ => hlen k), Finset.sum_add_distrib,
    indicator_interval_sum 0 H _ (by omega),
    auxList_total H offs 0 1 _ (by omega)]
  ring

/-! # Claim C4: the aggregator builds an exact partition -/

/-- C4.  The aggregator accumulates `absolute_offset_i` as the running sum
of the per-frame offsets (`absolute_offset_0 = 0`), sends row `y` of frame
`i` to key `y + absolute_offset_i`, and the resulting map is an exact
partition of the `(frame, row)` pairs: each pair `(i, y)` with
`i ≤ offs.length` and `y < H` occurs exactly once, at exactly that key;
every entry of the map is such a pair at its own key; and the lists hold
`(offs.length + 1) · H` entries in total. -/
theorem aggregator_partition (offs : List Nat) (H : Nat) :
    (absoluteOffset offs 0 = 0 ∧
      ∀ i < offs.length,
        absoluteOffset offs (i + 1) = absoluteOffset offs i + offs.getD i 0) ∧
    (∀ i ≤ offs.length, ∀ y < H,
      ((aggregate offs H).1 (y + absoluteOffset offs i)).count (i, y) = 1 ∧
        ∀ k, (i, y) ∈ (aggregate offs H).1 k → k = y + absoluteOffset offs i) ∧
    (∀ k, ∀ p ∈ (aggregate offs H).1 k,
      p.1 ≤ offs.length ∧ p.2 < H ∧ k = p.2 + absoluteOffset offs p.1) ∧
    (∑ k ∈ Finset.range ((aggregate offs H).2 + H),
      ((aggregate offs H).1 k).length) = (offs.length + 1) * H := by
  refine ⟨⟨by simp [absoluteOffset], ?_⟩, ?_, ?_, ?_⟩
  · intro i hi
    unfold absoluteOffset
    rw [List.take_succ, List.sum_append]
    have hget : offs[i]? = some (offs.getD i 0) := by
      rw [List.getD_eq_getElem?_getD, List.getElem?_eq_getElem hi]
      rfl
    rw [hget]
    simp
  · intro i hi y hy
    constructor
    · rw [aggregate_count, if_pos ⟨hi, hy, rfl⟩]
    · intro k hk
      by_cases hc : i ≤ offs.length ∧ y < H ∧ k = y + absoluteOffset offs i
      · exact hc.2.2
      · have h0 : ((aggregate offs H).1 k).count (i, y) = 0 := by
          rw [aggregate_count, if_neg hc]
        exact absurd (List.count_eq_zero.mp h0) (by simp [hk])
  · intro k p hp
    obtain ⟨i, y⟩ := p
    by_cases hc : i ≤ offs.length ∧ y < H ∧ k = y + absoluteOffset offs i
    · exact hc
    · have h0 : ((aggregate offs H).1 k).count (i, y) = 0 := by
        rw [aggregate_count, if_neg hc]
      exact absurd (List.count_eq_zero.mp h0) (by simp [hp])
  · rw [aggregate_snd]
    exact aggregate_total offs H

/-- Witness for C4 at `offs = [1]`, `H = 2`: pair `(1, 0)` occurs exactly
once, at key `0 + absolute_offset_1 = 1`. -/
theorem aggregator_partition_witness :
    (1 : Nat) ≤ ([1] : List Nat).length ∧ (0 : Nat) < 2 ∧
      (((aggregate [1] 2).1 (0 + absoluteOffset [1] 1)).count (1, 0) = 1 ∧
        ∀ k, (1, 0) ∈ (aggregate [1] 2).1 k → k = 0 + absoluteOffset [1] 1) :=
  ⟨by decide, by decide,
    (aggregator_partition [1] 2).2.1 1 (by decide) 0 (by decide)⟩

/-! # Claim C10: the contribution keys form a contiguous range -/

/-- C10.  When every per-frame offset is below `H` (as the matcher
guarantees, its candidates being `range(0, height)`) and `H ≥ 1`, the
contribution map's non-empty keys are exactly `[0, finalAbsolute + H)` —
the output height — so a contribution map with gaps is unreachable for
equal-height input. -/
theorem contribution_keys_contiguous (offs : List Nat) (H : Nat)
    (hH : 1 ≤ H) (hoffs : ∀ o ∈ offs, o < H) :
    ∀ k, (aggregate offs H).1 k ≠ [] ↔ k < (aggregate offs H).2 + H := by
  intro k
  rw [aggregate_fst, aggregate_snd]
  constructor
  · intro h
    by_cases htail : auxList H offs 0 1 k = []
    · rw [htail, List.append_nil] at h
      by_cases hc : k < H
      · have : 0 ≤ offs.sum := Nat.zero_le _
        omega
      · rw [if_neg hc] at h; exact absurd rfl h
    · have := auxList_ne_nil_bound H offs 0 1 k htail
      omega
  · intro hk
    by_cases hc : k < H
    · rw [if_pos hc]
      simp
    · have := auxList_covers H offs hoffs 0 1 k (by omega) (by omega)
      intro hcontra
      exact this (List.append_eq_nil.mp hcontra).2

/-- Witness for C10 at `offs = [1]`, `H = 2`, `k = 2`: key 2 is populated
and `2 < 1 + 2`. -/
theorem contribution_keys_contiguous_witness :
    (aggregate [1] 2).1 2 ≠ [] ↔ 2 < (aggregate [1] 2).2 + 2 :=
  contribution_keys_contiguous [1] 2 (by decide) (by decide) 2

/-! # Facts about the compositor's buckets -/

/-- Closed form of the bucket builder: the on-screen bucket lists the
contributions passing the on-screen test, in order; the off-screen bucket
lists the others. -/
theorem buckets_characterization (frames : List Frame)
    (contribs : List (Nat × Nat)) (x H : Nat) (u : Bool) :
    (buckets frames contribs x H u).1 =
      (contribs.filter (fun ir => onScreen x ir.2 H u)).map
        (fun ir => (ir.2, (frames.getD ir.1 ⟨0, 0, fun _ _ => ⟨0, 0, 0, 0⟩⟩).pix x ir.2)) ∧
    (buckets frames contribs x H u).2 =
      (contribs.filter (fun ir => !onScreen x ir.2 H u)).map
        (fun ir => (ir.2, (frames.getD ir.1 ⟨0, 0, fun _ _ => ⟨0, 0, 0, 0⟩⟩).pix x ir.2)) := by
  have key : ∀ (l : List (Nat × Nat)) (init : List (Nat × Pixel) × List (Nat × Pixel)),
      l.foldl
        (fun bs ir =>
          let p := (frames.getD ir.1 ⟨0, 0, fun _ _ => ⟨0, 0, 0, 0⟩⟩).pix x ir.2
          if onScreen x ir.2 H u then (bs.1 ++ [(ir.2, p)], bs.2)
          else (bs.1, bs.2 ++ [(ir.2, p)]))
        init =
      (init.1 ++ (l.filter (fun ir => onScreen x ir.2 H u)).map
          (fun ir => (ir.2, (frames.getD ir.1 ⟨0, 0, fun _ _ => ⟨0, 0, 0, 0⟩⟩).pix x ir.2)),
        init.2 ++ (l.filter (fun ir => !onScreen x ir.2 H u)).map
          (fun ir => (ir.2, (frames.getD ir.1 ⟨0, 0, fun _ _ => ⟨0, 0, 0, 0⟩⟩).pix x ir.2))) := by
    intro l
    induction l with
    | nil => intro init; simp
    | cons ir rest ih =>
      intro init
      rw [List.foldl_cons]
      by_cases hos : onScreen x ir.2 H u = true
      · simp only [hos, if_true, ih, List.filter_cons, Bool.not_true]
        simp [hos]
      · have hosf : onScreen x ir.2 H u = false := by simpa using hos
        simp only [hosf, if_false, ih, List.filter_cons, Bool.not_false]
        simp [hosf]
  have := key contribs ([], [])
  unfold buckets
  rw [this]
  simp

/-! # Claim C6: the circular mask excludes points outside the circle -/

/-- C6.  With the circular mask enabled, a contribution `(i, row)` whose
point satisfies `(x − mid)² + (row − mid)² ≥ (H/2 − 2)²` (scaled by 4:
`(2x − (H−1))² + (2row − (H−1))² ≥ (H − 4)²`) is never placed in the
on-screen bucket — no on-screen entry carries that row — and it is placed
in the off-screen bucket, reachable only through the edge fallback. -/
theorem circular_mask_excludes_outside_circle (frames : List Frame)
    (contribs : List (Nat × Nat)) (x H i row : Nat)
    (hmem : (i, row) ∈ contribs)
    (hyp : ((H : Int) - 4) ^ 2 ≤
      (2 * (x : Int) - ((H : Int) - 1)) ^ 2 +
        (2 * (row : Int) - ((H : Int) - 1)) ^ 2) :
    onScreen x row H true = false ∧
      (row, (frames.getD i ⟨0, 0, fun _ _ => ⟨0, 0, 0, 0⟩⟩).pix x row) ∈
        (buckets frames contribs x H true).2 ∧
      ∀ q, (row, q) ∉ (buckets frames contribs x H true).1 := by
  have hnot : ¬((2 * (x : Int) - ((H : Int) - 1)) ^ 2 +
      (2 * (row : Int) - ((H : Int) - 1)) ^ 2 < ((H : Int) - 4) ^ 2) :=
    not_lt.mpr hyp
  have honf : onScreen x row H true = false := by
    simp [onScreen, hnot]
  obtain ⟨hon, hoff⟩ := buckets_characterization frames contribs x H true
  refine ⟨honf, ?_, ?_⟩
  · rw [hoff]
    apply List.mem_map.mpr
    refine ⟨(i, row), ?_, rfl⟩
    apply List.mem_filter.mpr
    exact ⟨hmem, by simp [honf]⟩
  · intro q hq
    rw [hon] at hq
    obtain ⟨ir, hir, heq⟩ := List.mem_map.mp hq
    have hirf := (List.mem_filter.mp hir).2
    have hrow : ir.2 = row := by
      have := congrArg Prod.fst heq
      simpa using this
    rw [hrow] at hirf
    rw [honf] at hirf
    exact absurd hirf (by simp)

/-- Witness for C6: `H = 4`, `x = 3`, `row = 0` — the corner point of a
4-pixel round display, `(2·3−3)² + (−3)² = 18 ≥ 0 = (4−4)²`. -/
theorem circular_mask_excludes_outside_circle_witness :
    onScreen 3 0 4 true = false ∧
      (0, ((solidFrame 4 4 ⟨8, 8, 8, 8⟩ :: []).getD 0
          ⟨0, 0, fun _ _ => ⟨0, 0, 0, 0⟩⟩).pix 3 0) ∈
        (buckets [solidFrame 4 4 ⟨8, 8, 8, 8⟩] [(0, 0)] 3 4 true).2 ∧
      ∀ q, (0, q) ∉ (buckets [solidFrame 4 4 ⟨8, 8, 8, 8⟩] [(0, 0)] 3 4 true).1 :=
  circular_mask_excludes_outside_circle [solidFrame 4 4 ⟨8, 8, 8, 8⟩]
    [(0, 0)] 3 4 0 0 (by decide) (by decide)

/-! # Claim C5: end-to-end on two identical solid frames -/

theorem selectPixel_pair_same (r : Nat) (c : Pixel) (H : Nat) :
    selectPixel [(r, c), (r, c)] H = some c := by
  simp [selectPixel, pyMin, distPixLt_irrefl]

theorem bestMatch_same4 (h : Nat) :
    bestMatch [h, h, h, h] [h, h, h, h] 4 = some (4, 0) := by
  have hsc : ∀ o, o < 4 → matchScore [h, h, h, h] [h, h, h, h] 4 o = 4 - o := by
    intro o ho
    interval_cases o <;>
      simp [matchScore, List.filter, show List.range 4 = [0, 1, 2, 3] from rfl,
        show List.range 3 = [0, 1, 2] from rfl,
        show List.range 2 = [0, 1] from rfl,
        show List.range 1 = [0] from rfl]
  rw [bestMatch, show List.range 4 = [0, 1, 2, 3] from rfl]
  simp only [List.map_cons, List.map_nil, hsc 0 (by omega), hsc 1 (by omega),
    hsc 2 (by omega), hsc 3 (by omega)]
  rfl

theorem c5_hash (c : Pixel) :
    get_row_hashes (solidFrame 4 4 c) =
      [(1 * HASH_MULTIPLIER + rgb_to_int c) % HASH_MODULO,
       (1 * HASH_MULTIPLIER + rgb_to_int c) % HASH_MODULO,
       (1 * HASH_MULTIPLIER + rgb_to_int c) % HASH_MODULO,
       (1 * HASH_MULTIPLIER + rgb_to_int c) % HASH_MODULO] := by
  unfold get_row_hashes rowHash
  rw [show (solidFrame 4 4 c).width = 4 from rfl,
    show (solidFrame 4 4 c).height = 4 from rfl,
    show bandLo 4 = 1 from rfl, show bandHi 4 = 2 from rfl]
  rfl

theorem c5_offsets (c : Pixel) :
    pipelineOffsets (solidFrame 4 4 c) [solidFrame 4 4 c] 4 = some [0] := by
  have hbm := bestMatch_same4 ((1 * HASH_MULTIPLIER + rgb_to_int c) % HASH_MODULO)
  simp only [pipelineOffsets, List.foldl_cons, List.foldl_nil, c5_hash, hbm]
  rfl

theorem c5_pix (c : Pixel) (cv : List (List Pixel)) (x y : Nat) :
    compositePixel [solidFrame 4 4 c, solidFrame 4 4 c] [(0, y), (1, y)]
      cv x y 4 4 false false = some c := by
  have hbk : buckets [solidFrame 4 4 c, solidFrame 4 4 c] [(0, y), (1, y)]
      x 4 false = ([(y, c), (y, c)], []) := rfl
  simp only [compositePixel, hbk]
  exact selectPixel_pair_same y c 4

theorem c5_row (c : Pixel) (cv : List (List Pixel)) (y : Nat) :
    compositeRow [solidFrame 4 4 c, solidFrame 4 4 c] [(0, y), (1, y)]
      cv 4 y 4 4 false false = some [c, c, c, c] := by
  unfold compositeRow
  rw [show List.range 4 = [0, 1, 2, 3] from rfl]
  simp only [List.foldr_cons, List.foldr_nil, c5_pix]

theorem c5_composite (c : Pixel) :
    composite [solidFrame 4 4 c, solidFrame 4 4 c] (aggregate [0] 4).1
      4 4 4 false false =
      some [[c, c, c, c], [c, c, c, c], [c, c, c, c], [c, c, c, c]] := by
  unfold composite
  rw [show List.range 4 = [0, 1, 2, 3] from rfl]
  simp only [List.foldl_cons, List.foldl_nil,
    show (aggregate [0] 4).1 0 = [(0, 0), (1, 0)] from rfl,
    show (aggregate [0] 4).1 1 = [(0, 1), (1, 1)] from rfl,
    show (aggregate [0] 4).1 2 = [(0, 2), (1, 2)] from rfl,
    show (aggregate [0] 4).1 3 = [(0, 3), (1, 3)] from rfl,
    c5_row]
  rfl

/-- C5.  Two identical 4×4 frames of one solid color, circular mask off and
transparency off: the matcher returns offset 0 for the second frame (its
score `(4, 0)` is the lexicographic maximum), the canvas is 4×4, and every
output pixel equals the input color. -/
theorem end_to_end_two_identical_frames (c : Pixel) :
    stitch [solidFrame 4 4 c, solidFrame 4 4 c] false false =
      some ([0], 4, List.replicate 4 (List.replicate 4 c)) := by
  simp only [stitch, show (solidFrame 4 4 c).height = 4 from rfl,
    show (solidFrame 4 4 c).width = 4 from rfl]
  rw [if_neg (by omega)]
  rw [c5_offsets]
  simp only [show (aggregate [0] 4).2 = 0 from rfl]
  rw [show (0 : Nat) + 4 = 4 from rfl, c5_composite]
  rfl

/-- C3, counterexample.  Python's `min` over `(distance, pixel)` tuples
breaks distance ties by comparing the *pixel tuples*, not by insertion
order.  With `H = 4` the bucket `[(row 1, (5,0,0,255)), (row 2, (1,0,0,255))]`
has both rows at distance `0.5` from the middle `1.5`; the code selects the
lexicographically smaller pixel `(1,0,0,255)` from the *second* entry,
whereas the claim's first-seen rule selects `(5,0,0,255)`. -/
theorem compositor_tiebreak_not_first_seen :
    selectPixel [(1, ⟨5, 0, 0, 255⟩), (2, ⟨1, 0, 0, 255⟩)] 4 =
        some ⟨1, 0, 0, 255⟩ ∧
      selectPixelFirstSeen [(1, ⟨5, 0, 0, 255⟩), (2, ⟨1, 0, 0, 255⟩)] 4 =
        some ⟨5, 0, 0, 255⟩ ∧
      selectPixel [(1, ⟨5, 0, 0, 255⟩), (2, ⟨1, 0, 0, 255⟩)] 4 ≠
        selectPixelFirstSeen [(1, ⟨5, 0, 0, 255⟩), (2, ⟨1, 0, 0, 255⟩)] 4 := by
  decide

/-- C3, amended.  For a non-empty bucket, the selection used for both the
on-screen bucket and the off-screen edge fallback returns the pixel of the
first entry whose `(distance-to-middle, pixel)` key is lexicographically
minimal: ties in the distance are broken by the smaller pixel tuple
`(r, g, b, a)`, and insertion order only decides between entries with equal
distance *and* equal pixel. -/
theorem compositor_selects_first_lex_minimal (bucket : List (Nat × Pixel))
    (H : Nat) (hb : bucket ≠ []) :
    ∃ m : Nat × Pixel, ∃ j, j < bucket.length ∧
      (bucket.map (fun rp => (dist2 rp.1 H, rp.2))).get? j = some m ∧
      selectPixel bucket H = some m.2 ∧
      (∀ k ∈ bucket.map (fun rp => (dist2 rp.1 H, rp.2)), distPixLt k m = false) ∧
      (∀ i < j, ∀ k,
        (bucket.map (fun rp => (dist2 rp.1 H, rp.2))).get? i = some k →
        distPixLt m k = true) := by
  have hne : bucket.map (fun rp => (dist2 rp.1 H, rp.2)) ≠ [] := by
    simp [hb]
  obtain ⟨x, xs, hxl⟩ := List.exists_cons_of_ne_nil hne
  have hsel : selectPixel bucket H = some (foldMinB distPixLt x xs).2 := by
    rw [selectPixel, hxl]; rfl
  have hlen : bucket.length = xs.length + 1 := by
    have := congrArg List.length hxl
    simpa using this
  obtain ⟨hminx, hminxs⟩ :=
    foldMinB_not_lt distPixLt distPixLt_trans distPixLt_conn distPixLt_irrefl x xs
  have hmin : ∀ k ∈ bucket.map (fun rp => (dist2 rp.1 H, rp.2)),
      distPixLt k (foldMinB distPixLt x xs) = false := by
    intro k hk
    rw [hxl] at hk
    rcases List.mem_cons.mp hk with rfl | hk
    · exact hminx
    · exact hminxs k hk
  rcases foldMinB_first_minimal distPixLt distPixLt_trans distPixLt_conn x xs
    with h | ⟨j, hj, hget, hlt, hearlier⟩
  · refine ⟨foldMinB distPixLt x xs, 0, by omega, ?_, hsel, hmin, by omega⟩
    rw [hxl, h]; rfl
  · refine ⟨foldMinB distPixLt x xs, j + 1, by omega, ?_, hsel, hmin, ?_⟩
    · rw [hxl]; simpa using hget
    · intro i hi k hk
      rw [hxl] at hk
      match i, hk with
      | 0, hk => exact (Option.some_inj.mp hk) ▸ hlt
      | i + 1, hk => exact hearlier i (by omega) k (by simpa using hk)

/-- Witness for C3's amended theorem at a concrete bucket with a distance
tie resolved by the pixel comparison. -/
theorem compositor_selects_first_lex_minimal_witness :
    ∃ m : Nat × Pixel, ∃ j,
      j < ([(1, ⟨9, 0, 0, 255⟩), (2, ⟨4, 0, 0, 255⟩)] :
          List (Nat × Pixel)).length ∧
      (([(1, ⟨9, 0, 0, 255⟩), (2, ⟨4, 0, 0, 255⟩)] :
          List (Nat × Pixel)).map (fun rp => (dist2 rp.1 4, rp.2))).get? j =
        some m ∧
      selectPixel [(1, ⟨9, 0, 0, 255⟩), (2, ⟨4, 0, 0, 255⟩)] 4 = some m.2 ∧
      (∀ k ∈ ([(1, ⟨9, 0, 0, 255⟩), (2, ⟨4, 0, 0, 255⟩)] :
          List (Nat × Pixel)).map (fun rp => (dist2 rp.1 4, rp.2)),
        distPixLt k m = false) ∧
      (∀ i < j, ∀ k,
        (([(1, ⟨9, 0, 0, 255⟩), (2, ⟨4, 0, 0, 255⟩)] :
            List (Nat × Pixel)).map (fun rp => (dist2 rp.1 4, rp.2))).get? i =
          some k →
        distPixLt m k = true) :=
  compositor_selects_first_lex_minimal
    [(1, ⟨9, 0, 0, 255⟩), (2, ⟨4, 0, 0, 255⟩)] 4 (by decide)

/-! # Claim C1: the offset matcher returns the lexicographic maximum -/

/-- C1.  For hash sequences `previous` and `current` of length `H ≥ 1`, the
offset matcher returns a pair `(s, o)` with `o ∈ [0, H)` and
`s = score(o)` that is lexicographically maximal over all offsets: every
other offset has a smaller score, or the same score and a smaller-or-equal
offset (ties in score go to the larger offset).  In particular, when the
maximal score is attained exactly at offsets 3 and 7, the matcher returns
offset 7. -/
theorem offset_matcher_returns_lex_max (previous current : List Nat) (H : Nat)
    (hH : 1 ≤ H) (hp : previous.length = H) (hc : current.length = H) :
    ∃ s o, bestMatch previous current H = some (s, o) ∧ o < H ∧
      s = matchScore current previous H o ∧
      (∀ o' < H, matchScore current previous H o' < s ∨
        (matchScore current previous H o' = s ∧ o' ≤ o)) ∧
      (7 < H → matchScore current previous H 3 = s →
        matchScore current previous H 7 = s →
        (∀ o' < H, matchScore current previous H o' = s → o' = 3 ∨ o' = 7) →
        o = 7) := by
  have hne : (List.range H).map
      (fun offset => (matchScore current previous H offset, offset)) ≠ [] := by
    simp [List.range_eq_nil]; omega
  obtain ⟨x, xs, hxl⟩ := List.exists_cons_of_ne_nil hne
  have hbm : bestMatch previous current H = some (foldMaxB pairLt x xs) := by
    rw [bestMatch, hxl]; rfl
  set r := foldMaxB pairLt x xs with hr
  have hmem : r ∈ (List.range H).map
      (fun offset => (matchScore current previous H offset, offset)) := by
    rw [hxl]
    rcases foldMaxB_mem pairLt x xs with h | h
    · exact h ▸ List.mem_cons_self x xs
    · exact List.mem_cons_of_mem x h
  obtain ⟨o, ho, hro⟩ := List.mem_map.mp hmem
  have hoH : o < H := List.mem_range.mp ho
  have hmax : ∀ y ∈ (List.range H).map
      (fun offset => (matchScore current previous H offset, offset)),
      pairLt r y = false := by
    intro y hy
    rw [hxl] at hy
    obtain ⟨h1, h2⟩ := foldMaxB_not_lt pairLt pairLt_trans pairLt_conn pairLt_irrefl x xs
    rcases List.mem_cons.mp hy with rfl | hy
    · exact h1
    · exact h2 y hy
  refine ⟨matchScore current previous H o, o, by rw [hbm, hro], hoH, rfl, ?_, ?_⟩
  · intro o' ho'
    have hy : (matchScore current previous H o', o') ∈ (List.range H).map
        (fun offset => (matchScore current previous H offset, offset)) :=
      List.mem_map.mpr ⟨o', List.mem_range.mpr ho', rfl⟩
    have := hmax _ hy
    have hnot : ¬(pairLt r (matchScore current previous H o', o') = true) := by
      simp [this]
    rw [pairLt_iff, ← hro] at hnot
    simp only [not_or, not_and, not_lt] at hnot
    rcases Nat.lt_or_ge (matchScore current previous H o')
        (matchScore current previous H o) with h | h
    · exact Or.inl h
    · right
      have h1 : matchScore current previous H o ≥ matchScore current previous H o' := hnot.1
      have heq : matchScore current previous H o' = matchScore current previous H o := by omega
      exact ⟨heq, by have := hnot.2 heq.symm; omega⟩
  · intro h7H h3 h7 honly
    have ho37 : o = 3 ∨ o = 7 := honly o hoH rfl
    have hy7 : (matchScore current previous H 7, 7) ∈ (List.range H).map
        (fun offset => (matchScore current previous H offset, offset)) :=
      List.mem_map.mpr ⟨7, List.mem_range.mpr h7H, rfl⟩
    have := hmax _ hy7
    have hnot : ¬(pairLt r (matchScore current previous H 7, 7) = true) := by
      simp [this]
    rw [pairLt_iff, ← hro] at hnot
    simp only [not_or, not_and, not_lt] at hnot
    have := hnot.2 (by rw [h7])
    omega

/-! # Claim C2: the row hasher's column band -/

/-- C2, counterexample.  At width 90 the source samples columns
`[int(90*0.3), int(90*0.7)) = [27, 62)` — the double product `90 * 0.7`
rounds to `62.999999999999993`, so truncation yields 62, not the exact
floor `⌊0.7·90⌋ = 63`.  On a black 90×1 frame the code's hash therefore
differs from the value the claim describes. -/
theorem row_hasher_band_deviates_at_width_90 :
    rowHash frame90 0 ≠ floorBandRowHash frame90 0 ∧
      bandHi 90 = 62 ∧ 7 * 90 / 10 = 63 := by decide

/-- C2, amended.  The row hasher performs the stated Horner fold
(`hash = (hash·31 + R·65536 + G·256 + B) mod 2^64`, seeded with 1, left to
right), but over the columns `[int(0.3·W), int(0.7·W))` computed in IEEE
double precision; those bounds agree with the exact rational floors for
every width up to 89 (so the claim's formula holds there), and first
deviate at width 90. -/
theorem row_hasher_matches_floor_band_below_90 (f : Frame) (hw : f.width ≤ 89) :
    ∀ y, rowHash f y = floorBandRowHash f y := by
  intro y
  obtain ⟨h1, h2⟩ := band_eq_floor_band_below_90 f.width (by omega)
  rw [rowHash, floorBandRowHash, h1, h2]

/-- Witness for C2's amended theorem: a width-4 frame, where the band is
`[1, 2)` on both readings. -/
theorem row_hasher_matches_floor_band_below_90_witness :
    rowHash bandFrameA 0 = floorBandRowHash bandFrameA 0 :=
  row_hasher_matches_floor_band_below_90 bandFrameA (by decide) 0

/-! # Claim C8: behaviour at small widths -/

/-- C8, counterexample.  A width-2 frame has width `< 4` but its sampled
band `[int(2*0.3), int(2*0.7)) = [0, 1)` is *not* empty: the hash of a
black row is `1·31 + 0 = 31`, not 1. -/
theorem band_nonempty_at_width_two :
    frameW2.width < 4 ∧ bandLo 2 = 0 ∧ bandHi 2 = 1 ∧
      get_row_hashes frameW2 ≠ List.replicate frameW2.height 1 := by decide

/-- C8, amended.  Only for widths below 2 (`W ∈ {0, 1}`) is the sampled
column band empty, making the row hasher return the seed hash 1 for every
row; at widths 2 and 3 the band is non-empty (`[0, 1)` and `[0, 2)`). -/
theorem hashes_constant_one_for_width_lt_two (f : Frame) (hw : f.width < 2) :
    bandHi f.width ≤ bandLo f.width ∧
      get_row_hashes f = List.replicate f.height 1 := by
  have hb : bandLo f.width = 0 ∧ bandHi f.width = 0 := by
    have h01 : f.width = 0 ∨ f.width = 1 := by omega
    rcases h01 with h | h <;> rw [h] <;> exact ⟨by decide, by decide⟩
  have hrow : ∀ y, rowHash f y = 1 := by
    intro y
    rw [rowHash, hb.1, hb.2]
    rfl
  refine ⟨by rw [hb.1, hb.2], ?_⟩
  rw [get_row_hashes]
  apply List.eq_replicate_iff.mpr
  refine ⟨by simp, ?_⟩
  intro b hbmem
  obtain ⟨y, _, hy⟩ := List.mem_map.mp hbmem
  rw [← hy, hrow]

/-- Witness for C8's amended theorem: a width-1 frame of height 2. -/
theorem hashes_constant_one_for_width_lt_two_witness :
    bandHi (solidFrame 1 2 ⟨5, 5, 5, 5⟩).width ≤
        bandLo (solidFrame 1 2 ⟨5, 5, 5, 5⟩).width ∧
      get_row_hashes (solidFrame 1 2 ⟨5, 5, 5, 5⟩) =
        List.replicate (solidFrame 1 2 ⟨5, 5, 5, 5⟩).height 1 :=
  hashes_constant_one_for_width_lt_two (solidFrame 1 2 ⟨5, 5, 5, 5⟩) (by decide)

/-! # Claim C9: the row hasher depends only on the sampled band -/

/-- C9.  The row hasher is deterministic (it is a function) and depends
only on the pixels in the sampled column band: two frames of equal
dimensions that agree on the sampled columns `[int(0.3·W), int(0.7·W))` of
every row have equal row-hash sequences; moreover, for every width up to
1024 the sampled band is contained in the exact-floor band
`[⌊0.3·W⌋, ⌊0.7·W⌋)` of the claim's wording, so agreement on that range
also suffices. -/
theorem hash_depends_only_on_band :
    (∀ f g : Frame, f.width = g.width → f.height = g.height →
      (∀ y < f.height, ∀ x, bandLo f.width ≤ x → x < bandHi f.width →
        f.pix x y = g.pix x y) →
      get_row_hashes f = get_row_hashes g) ∧
    (∀ f g : Frame, f.width ≤ 1024 → f.width = g.width → f.height = g.height →
      (∀ y < f.height, ∀ x, 3 * f.width / 10 ≤ x → x < 7 * f.width / 10 →
        f.pix x y = g.pix x y) →
      get_row_hashes f = get_row_hashes g) := by
  constructor
  · intro f g hw hh hagree
    exact get_row_hashes_congr_on f g (bandLo f.width) (bandHi f.width)
      hw hh le_rfl le_rfl hagree
  · intro f g hw1024 hw hh hagree
    obtain ⟨h1, h2⟩ := band_subset_floor_band f.width (by omega)
    exact get_row_hashes_congr_on f g (3 * f.width / 10) (7 * f.width / 10)
      hw hh h1 h2 hagree

/-- Witness for C9 at concrete frames: two 4×1 frames agreeing on the band
column `x = 1` and differing everywhere else have equal hash sequences. -/
theorem hash_depends_only_on_band_witness :
    get_row_hashes bandFrameA = get_row_hashes bandFrameB :=
  hash_depends_only_on_band.1 bandFrameA bandFrameB rfl rfl
    (by
      intro y hy x hx1 hx2
      have hb1 : bandLo bandFrameA.width = 1 := by decide
      have hb2 : bandHi bandFrameA.width = 2 := by decide
      rw [hb1] at hx1
      rw [hb2] at hx2
      have hx : x = 1 := by omega
      rw [hx]
      rfl)

/-- Witness for C1 at a concrete input: `previous = [5, 6]`,
`current = [6, 9]`, `H = 2` (scores: offset 0 → 0 matches, offset 1 → 1
match; the matcher picks `(1, 1)`). -/
theorem offset_matcher_returns_lex_max_witness :
    ∃ s o, bestMatch [5, 6] [6, 9] 2 = some (s, o) ∧ o < 2 ∧
      s = matchScore [6, 9] [5, 6] 2 o ∧
      (∀ o' < 2, matchScore [6, 9] [5, 6] 2 o' < s ∨
        (matchScore [6, 9] [5, 6] 2 o' = s ∧ o' ≤ o)) ∧
      (7 < 2 → matchScore [6, 9] [5, 6] 2 3 = s →
        matchScore [6, 9] [5, 6] 2 7 = s →
        (∀ o' < 2, matchScore [6, 9] [5, 6] 2 o' = s → o' = 3 ∨ o' = 7) →
        o = 7) :=
  offset_matcher_returns_lex_max [5, 6] [6, 9] 2 (by decide) (by decide) (by decide)

/-! # Claim C7: totality of the compositing step -/

theorem bestMatch_isSome_lt (previous current : List Nat) (H : Nat) (hH : 1 ≤ H) :
    ∃ s o, bestMatch previous current H = some (s, o) ∧ o < H := by
  have hne : (List.range H).map
      (fun offset => (matchScore current previous H offset, offset)) ≠ [] := by
    simp [List.range_eq_nil]
    omega
  obtain ⟨x, xs, hxl⟩ := List.exists_cons_of_ne_nil hne
  have hbm : bestMatch previous current H = some (foldMaxB pairLt x xs) := by
    rw [bestMatch, hxl]; rfl
  have hmem : foldMaxB pairLt x xs ∈ (List.range H).map
      (fun offset => (matchScore current previous H offset, offset)) := by
    rw [hxl]
    rcases foldMaxB_mem pairLt x xs with h | h
    · exact (by rw [h]; exact List.mem_cons_self x xs)
    · exact List.mem_cons_of_mem x h
  obtain ⟨o, ho, hro⟩ := List.mem_map.mp hmem
  exact ⟨(foldMaxB pairLt x xs).1, o, by rw [hbm, ← hro], List.mem_range.mp ho⟩

theorem pipelineOffsets_isSome (H : Nat) (hH : 1 ≤ H) (rest : List Frame) :
    ∀ (hs : List Nat) (offs : List Nat), (∀ o ∈ offs, o < H) →
      ∃ offs2,
        (rest.foldl
          (fun acc fi =>
            match acc with
            | none => none
            | some st =>
                match bestMatch st.1 (get_row_hashes fi) H with
                | some so => some (get_row_hashes fi, st.2 ++ [so.2])
                | none => none)
          (some (hs, offs))).map (·.2) = some offs2 ∧
        ∀ o ∈ offs2, o < H := by
  induction rest with
  | nil => intro hs offs hoffs; exact ⟨offs, rfl, hoffs⟩
  | cons fi l ih =>
    intro hs offs hoffs
    obtain ⟨s, o, hbm, ho⟩ := bestMatch_isSome_lt hs (get_row_hashes fi) H hH
    simp only [List.foldl_cons]
    rw [hbm]
    exact ih (get_row_hashes fi) (offs ++ [o])
      (by
        intro o' ho'
        rcases List.mem_append.mp ho' with h | h
        · exact hoffs o' h
        · rw [List.mem_singleton.mp h]; exact ho)

theorem selectPixel_isSome (bucket : List (Nat × Pixel)) (H : Nat)
    (hb : bucket ≠ []) : (selectPixel bucket H).isSome := by
  obtain ⟨b, bs, rfl⟩ := List.exists_cons_of_ne_nil hb
  rfl

theorem filter_not_length {α : Type} (p : α → Bool) (l : List α) :
    (l.filter p).length + (l.filter (fun a => !p a)).length = l.length := by
  induction l with
  | nil => rfl
  | cons a l ih =>
    by_cases h : p a = true
    · simp [List.filter_cons, h, ← ih]
      omega
    · have hf : p a = false := by simpa using h
      simp [List.filter_cons, hf, ← ih]
      omega

theorem compositePixel_isSome (frames : List Frame)
    (contribs : List (Nat × Nat)) (canvasPrev : List (List Pixel))
    (x y H outH : Nat) (useRound transp : Bool)
    (hH : 3 ≤ H) (hc : contribs ≠ [])
    (hcv : 2 ≤ y → x < (canvasPrev.getD (y - 2) []).length) :
    (compositePixel frames contribs canvasPrev x y H outH useRound transp).isSome := by
  unfold compositePixel
  obtain ⟨hon, hoff⟩ := buckets_characterization frames contribs x H useRound
  by_cases hb1 : (buckets frames contribs x H useRound).1.isEmpty = true
  · rw [if_pos hb1]
    have hoffne : (buckets frames contribs x H useRound).2 ≠ [] := by
      have hlen := filter_not_length
        (fun ir => onScreen x ir.2 H useRound) contribs
      have h1 : (buckets frames contribs x H useRound).1.length = 0 := by
        rw [List.isEmpty_iff] at hb1
        simp [hb1]
      rw [hon] at h1
      rw [List.length_map] at h1
      intro hcontra
      rw [hoff] at hcontra
      have h2 := congrArg List.length hcontra
      rw [List.length_map] at h2
      simp only [List.length_nil] at h2
      have := List.length_pos_of_ne_nil hc
      omega
    by_cases hband : 2 * (y : Int) ≥ (H : Int) ∧
        2 * (y : Int) < 2 * (outH : Int) - (H : Int)
    · rw [if_pos hband]
      have hy2 : 2 ≤ y := by
        have := hband.1
        omega
      rw [if_pos hy2]
      have hx := hcv hy2
      rw [List.get?_eq_getElem?, List.getElem?_eq_getElem hx]
      rfl
    · rw [if_neg hband]
      by_cases ht : transp = true
      · rw [if_pos ht]; rfl
      · rw [if_neg ht]
        exact selectPixel_isSome _ H hoffne
  · rw [if_neg hb1]
    apply selectPixel_isSome
    intro hcontra
    rw [hcontra] at hb1
    exact hb1 rfl

theorem optFoldr_isSome (f : Nat → Option Pixel) (l : List Nat)
    (h : ∀ x ∈ l, (f x).isSome) :
    ∃ row, l.foldr
        (fun x acc =>
          match f x, acc with
          | some p, some r => some (p :: r)
          | _, _ => none)
        (some []) = some row ∧ row.length = l.length := by
  induction l with
  | nil => exact ⟨[], rfl, rfl⟩
  | cons a l ih =>
    obtain ⟨row, hrow, hlen⟩ := ih (fun x hx => h x (List.mem_cons_of_mem a hx))
    obtain ⟨p, hp⟩ := Option.isSome_iff_exists.mp (h a (List.mem_cons_self a l))
    refine ⟨p :: row, ?_, by simp [hlen]⟩
    rw [List.foldr_cons, hrow, hp]

theorem compositeRow_isSome (frames : List Frame)
    (contribs : List (Nat × Nat)) (canvasPrev : List (List Pixel))
    (W y H outH : Nat) (useRound transp : Bool)
    (hH : 3 ≤ H) (hc : contribs ≠ [])
    (hcv : 2 ≤ y → W ≤ (canvasPrev.getD (y - 2) []).length) :
    ∃ row, compositeRow frames contribs canvasPrev W y H outH useRound transp =
      some row ∧ row.length = W := by
  unfold compositeRow
  obtain ⟨row, hrow, hlen⟩ := optFoldr_isSome
    (fun x => compositePixel frames contribs canvasPrev x y H outH useRound transp)
    (List.range W)
    (by
      intro x hx
      have hxW : x < W := List.mem_range.mp hx
      exact compositePixel_isSome frames contribs canvasPrev x y H outH
        useRound transp hH hc (fun hy2 => by have := hcv hy2; omega))
  exact ⟨row, hrow, by rw [hlen, List.length_range]⟩

theorem composite_isSome (frames : List Frame) (m : ContribMap)
    (W H outH : Nat) (useRound transp : Bool) (hH : 3 ≤ H)
    (hm : ∀ y < outH, m y ≠ []) :
    ∃ canvas, composite frames m W H outH useRound transp = some canvas := by
  suffices hsuf : ∀ K, K ≤ outH → ∃ canvas,
      (List.range K).foldl
        (fun acc y =>
          match acc with
          | none => none
          | some canvas =>
              match compositeRow frames (m y) canvas W y H outH useRound transp with
              | some row => some (canvas ++ [row])
              | none => none)
        (some []) = some canvas ∧ canvas.length = K ∧
        ∀ row ∈ canvas, row.length = W by
    obtain ⟨canvas, hcv, _, _⟩ := hsuf outH le_rfl
    exact ⟨canvas, hcv⟩
  intro K
  induction K with
  | zero => intro _; exact ⟨[], rfl, rfl, by simp⟩
  | succ K ih =>
    intro hK
    obtain ⟨canvas, hcv, hlen, hrows⟩ := ih (by omega)
    have hcanv : 2 ≤ K → W ≤ (canvas.getD (K - 2) []).length := by
      intro hy2
      have hgl : K - 2 < canvas.length := by omega
      rw [List.getD_eq_getElem canvas [] hgl]
      have hmem := List.getElem_mem hgl
      have := hrows _ hmem
      omega
    obtain ⟨row, hrow, hrlen⟩ := compositeRow_isSome frames (m K) canvas
      W K H outH useRound transp hH (hm K (by omega)) hcanv
    refine ⟨canvas ++ [row], ?_, by simp [hlen], ?_⟩
    · rw [List.range_succ, List.foldl_append, hcv]
      simp only [List.foldl_cons, List.foldl_nil, hrow]
    · intro r hr
      rcases List.mem_append.mp hr with h | h
      · exact hrows r h
      · rw [List.mem_singleton.mp h]; exact hrlen

/-- C7, counterexample.  The two height-2, width-3 frames below are a
well-formed input (equal dimensions, more than one frame), the matcher
aligns them at offset 1 (output height 3), and with the circular mask on
and transparency off the compositor reaches output row `y = 1`, column
`x = 2` with an empty on-screen bucket inside the interior band
`H/2 ≤ y < outputHeight − H/2`; the fallback then reads the canvas at
`(2, y − 2) = (2, −1)`, outside the already-written canvas (an
`IndexError` on the PIL of the tool's era), so the pipeline fails. -/
theorem compositor_fallback_read_out_of_bounds :
    shortFrameA.width = shortFrameB.width ∧
      shortFrameA.height = shortFrameB.height ∧
      shortFrameA.height = 2 ∧
      stitch [shortFrameA, shortFrameB] true false = none := by
  exact ⟨rfl, rfl, rfl, by decide⟩

/-- C7, amended.  For every well-formed input whose frame height is at
least 3, the pipeline — and in particular the compositing step — never
fails: every consulted bucket minimum is over a non-empty bucket and the
interior-band fallback read at `(x, y − 2)` lands inside the
already-written canvas.  (At heights 1 and 2 the interior band can contain
`y < 2`, making the fallback read out of bounds, as the counterexample
shows.) -/
theorem stitch_total_for_height_ge_three (f0 : Frame) (rest : List Frame)
    (useRound transp : Bool) (hH : 3 ≤ f0.height)
    (hdim : ∀ g ∈ rest, g.width = f0.width ∧ g.height = f0.height) :
    (stitch (f0 :: rest) useRound transp).isSome := by
  obtain ⟨offs, hoffs, holt⟩ := pipelineOffsets_isSome f0.height (by omega) rest
    (get_row_hashes f0) [] (by simp)
  have hoffs2 : pipelineOffsets f0 rest f0.height = some offs := hoffs
  have hm : ∀ y < (aggregate offs f0.height).2 + f0.height,
      (aggregate offs f0.height).1 y ≠ [] := by
    intro y hy
    rw [aggregate_snd] at hy
    rw [aggregate_fst]
    by_cases hc : y < f0.height
    · rw [if_pos hc]; simp
    · have hcov := auxList_covers f0.height offs holt 0 1 y (by omega) (by omega)
      intro hcontra
      exact hcov (List.append_eq_nil.mp hcontra).2
  obtain ⟨canvas, hcomp⟩ := composite_isSome (f0 :: rest)
    (aggregate offs f0.height).1 f0.width f0.height
    ((aggregate offs f0.height).2 + f0.height) useRound transp hH hm
  simp only [stitch]
  rw [if_neg (show ¬(f0.height = 0) by omega), hoffs2]
  simp only []
  rw [hcomp]
  rfl

/-- Witness for C7's amended theorem: two identical 4×4 frames, circular
mask on, transparency off. -/
theorem stitch_total_for_height_ge_three_witness :
    (stitch [solidFrame 4 4 ⟨1, 2, 3, 4⟩, solidFrame 4 4 ⟨1, 2, 3, 4⟩]
      true false).isSome :=
  stitch_total_for_height_ge_three (solidFrame 4 4 ⟨1, 2, 3, 4⟩)
    [solidFrame 4 4 ⟨1, 2, 3, 4⟩] true false (by decide) (by decide)
